import Mathlib

/-
Verification of the ePIC BHCal energy-calibration MLP script
(EnergyCal_NN_MLP.py) against its natural-language specification.

The script is modelled shallowly: the network-architecture builder, the
feature scaler, the training loop and the bucketed evaluator are translated
into Lean definitions; floating-point values are modelled by exact
rationals or reals.
-/

set_option autoImplicit false

namespace EpicBHCal

/-! ## Network architecture builder (EnergyCal_NN_MLP.py, lines 160 to 174)

The script builds the layer list

  layers = [nn.Linear(inp_size, h1)]
  for i in range(hidden_layers):
      layers.append(nn.LeakyReLU(leakRate))
      if dropout > 0.0:
          layers.append(nn.Dropout(dropout))
      layers.append(nn.Linear(h1, math.ceil(neuron_decay * h1)))
      h1 = math.ceil(neuron_decay * h1)
  layers.append(nn.LeakyReLU(leakRate))
  layers.append(nn.Linear(h1, 1))

with the hyperparameters hidden_layers = 3, h1 = 256, neuron_decay = 0.5,
leakRate = 0.01, dropout = 0.0 from lines 44 to 59.
-/

/-- One stage of the sequential model: a linear map between widths, a
leaky-ReLU activation with its leak rate, or a dropout stage with its
probability. -/
inductive Layer where
  | linear (inWidth outWidth : ℕ)
  | leakyReLU (rate : ℚ)
  | dropoutLayer (p : ℚ)
  deriving DecidableEq, Repr

/-- The width of the next hidden layer: `math.ceil(neuron_decay * h1)`
(line 168 and 169 of the source). -/
def nextWidth (decay : ℚ) (w : ℕ) : ℕ :=
  (Int.ceil (decay * (w : ℚ))).toNat

/-- The body of the builder loop (lines 164 to 169): for each of the
`hiddenLayers` iterations, an activation stage, an optional dropout stage
when the dropout probability is positive, and a linear stage from the
current width to the next width.  Returns the appended stages together
with the final current width. -/
def buildLoop (decay leak drop : ℚ) : ℕ → ℕ → List Layer × ℕ
  | 0, h => ([], h)
  | n + 1, h =>
      let stage :=
        [Layer.leakyReLU leak]
          ++ (if drop > 0 then [Layer.dropoutLayer drop] else [])
          ++ [Layer.linear h (nextWidth decay h)]
      let rest := buildLoop decay leak drop n (nextWidth decay h)
      (stage ++ rest.1, rest.2)

/-- The whole sequential architecture (lines 162 to 174): an initial
linear stage from the input width to the first hidden width, the builder
loop, then one more activation stage and the terminal linear stage to a
single scalar output. -/
def buildLayers (inp hiddenLayers h1 : ℕ) (decay leak drop : ℚ) : List Layer :=
  let mid := buildLoop decay leak drop hiddenLayers h1
  [Layer.linear inp h1] ++ mid.1 ++ [Layer.leakyReLU leak, Layer.linear mid.2 1]

/-- The sequence of hidden widths the builder runs through: the first
hidden width followed by the successively decayed widths. -/
def widthList (decay : ℚ) : ℕ → ℕ → List ℕ
  | 0, h => [h]
  | n + 1, h => h :: widthList decay n (nextWidth decay h)

/-! ## Feature scaler (EnergyCal_NN_MLP.py, lines 72 to 79)

For a 2-D tensor, dims = list(range(val.dim() - 1)) = [0], so the mean
and the standard deviation are taken per column over the rows, and

  transform = (val - mean) / (std + 1e-8)

Floating-point values are modelled by exact reals; torch.std is the
square root of the Bessel-corrected sample variance (division by the
number of rows minus one). -/

/-- Per-column mean of a 2-D table: torch.mean(val, dim=[0]). -/
noncomputable def colMean {m n : ℕ} (val : Fin m → Fin n → ℝ) (j : Fin n) : ℝ :=
  (∑ i, val i j) / (m : ℝ)

/-- Per-column standard deviation of a 2-D table: torch.std(val, dim=[0]),
the square root of the sum of squared deviations from the column mean
divided by the number of rows minus one. -/
noncomputable def colStd {m n : ℕ} (val : Fin m → Fin n → ℝ) (j : Fin n) : ℝ :=
  Real.sqrt ((∑ i, (val i j - colMean val j) ^ 2) / ((m : ℝ) - 1))

/-- The feature scaler of lines 72 to 79: elementwise
(val - mean) / (std + 1e-8) with the per-column statistics of the same
table.  It is a pure function of its argument. -/
noncomputable def Scaler {m n : ℕ} (val : Fin m → Fin n → ℝ) :
    Fin m → Fin n → ℝ :=
  fun i j => (val i j - colMean val j) / (colStd val j + 1e-8)

/-- The preprocessing of lines 142 to 153: the training feature tensor
and the evaluation feature tensor are each passed through the Scaler
separately (x_tensor = Scaler(x_tensor) on line 144 and
x_tensor_test = Scaler(x_tensor_test) on line 151). -/
noncomputable def preprocess {mtr mte n : ℕ}
    (xTrain : Fin mtr → Fin n → ℝ) (xTest : Fin mte → Fin n → ℝ) :
    (Fin mtr → Fin n → ℝ) × (Fin mte → Fin n → ℝ) :=
  (Scaler xTrain, Scaler xTest)

/-! ## Trainer (EnergyCal_NN_MLP.py, lines 195 to 214)

The training loop is modelled as a state machine parameterised by the
opaque external capabilities it calls into (the model forward pass on the
fixed training tensor, the loss function against the fixed targets,
gradient handling, the optimizer and the plateau scheduler).  Loss values
are modelled by exact rationals.  Each epoch also emits the list of
observable actions it performs, in source order. -/

/-- One observable action of an epoch of the training loop. -/
inductive TrainEvent where
  | forwardPass
  | lossComputed (l : ℚ)
  | zeroGrad
  | backprop
  | optimStep
  | record (epoch : ℕ) (l : ℚ)
  | schedStep (l : ℚ)
  deriving DecidableEq, Repr

/-- The opaque external capabilities of the loop: model forward pass,
loss function, gradient clearing, back-propagation, one optimizer step,
and the plateau-scheduler step fed with a scalar loss. -/
structure TrainOps (M P O S : Type) where
  forward : M → P
  lossFn : P → ℚ
  zeroGrad : M → M
  backprop : M → P → M
  optimStep : O → M → M × O
  schedStep : S → ℚ → S

/-- The mutable state of the training loop: model parameters, optimizer
state, scheduler state, the loss and epoch traces, and the tracked
minimum loss. -/
structure TrainState (M O S : Type) where
  params : M
  optState : O
  schedState : S
  losslist : List ℚ
  epochlist : List ℕ
  minloss : ℚ

/-- One epoch of the training loop (lines 203 to 214), in source order:
y_pred = model(x_tensor); loss = loss_fn(y_pred, y_tensor);
optimizer.zero_grad(); loss.backward(); optimizer.step(); the progress
bar update (reporting only); losslist.append(loss.item()); the minloss
update; epochlist.append(n); scheduler.step(loss).  Returns the new state
together with the event trace of the epoch. -/
def epochBody {M P O S : Type} (ops : TrainOps M P O S) (n : ℕ)
    (st : TrainState M O S) : TrainState M O S × List TrainEvent :=
  let yPred := ops.forward st.params
  let loss := ops.lossFn yPred
  let m1 := ops.zeroGrad st.params
  let m2 := ops.backprop m1 yPred
  let stepped := ops.optimStep st.optState m2
  ({ params := stepped.1
     optState := stepped.2
     schedState := ops.schedStep st.schedState loss
     losslist := st.losslist ++ [loss]
     epochlist := st.epochlist ++ [n]
     minloss := if loss < st.minloss then loss else st.minloss },
   [TrainEvent.forwardPass, TrainEvent.lossComputed loss, TrainEvent.zeroGrad,
    TrainEvent.backprop, TrainEvent.optimStep, TrainEvent.record n loss,
    TrainEvent.schedStep loss])

/-- Running the first n epochs of the loop (for n in pbar, epoch indices
0 to n - 1), returning the final state and the concatenated event
trace.  The loop body contains no break or return: the recursion is
structural in the epoch count alone, for every choice of the external
capabilities. -/
def trainRun {M P O S : Type} (ops : TrainOps M P O S)
    (init : TrainState M O S) : ℕ → TrainState M O S × List TrainEvent
  | 0 => (init, [])
  | n + 1 =>
      let prev := trainRun ops init n
      let step := epochBody ops n prev.1
      (step.1, prev.2 ++ step.2)

/-- The initial loop state (lines 195 to 200): losslist = [],
epochlist = [] and minloss = 100.0. -/
def initState {M O S : Type} (p : M) (o : O) (s : S) : TrainState M O S :=
  { params := p, optState := o, schedState := s,
    losslist := [], epochlist := [], minloss := 100 }

/-- The loss computed in epoch n: the loss function applied to the
forward pass of the parameters current at the start of epoch n. -/
def lossAt {M P O S : Type} (ops : TrainOps M P O S) (init : TrainState M O S)
    (n : ℕ) : ℚ :=
  ops.lossFn (ops.forward (trainRun ops init n).1.params)

/-- The event trace of one epoch with index n and loss l. -/
def epochEvents (n : ℕ) (l : ℚ) : List TrainEvent :=
  [TrainEvent.forwardPass, TrainEvent.lossComputed l, TrainEvent.zeroGrad,
   TrainEvent.backprop, TrainEvent.optimStep, TrainEvent.record n l,
   TrainEvent.schedStep l]

/-! ## Bucketed evaluation (EnergyCal_NN_MLP.py, lines 236 to 252)

True values and predictions are modelled by exact rationals; the scanned
grid np.arange(0, 30, 0.5) and the window bounds k - 0.25 and k + 0.25
are exactly representable.  The source keeps two parallel lists
energy_list and hist_list with paired appends; they are modelled as one
list of center and bucket pairs. -/

/-- The scanned grid of candidate bucket centers: np.arange(0, 30, 0.5),
that is 0, 0.5, 1.0, ..., 29.5. -/
def grid : List ℚ :=
  (List.range 60).map (fun i : ℕ => (i : ℚ) / 2)

/-- The strict window test of lines 242 and 251:
k - 0.25 < t and t < k + 0.25. -/
def inWindow (k t : ℚ) : Prop :=
  k - 1 / 4 < t ∧ t < k + 1 / 4

instance (k t : ℚ) : Decidable (inWindow k t) := by
  unfold inWindow
  infer_instance

/-- One outer iteration of the discovery loop (lines 241 to 244) for the
true value t: scan every grid value k and register it if t lies strictly
within its window and k is not already registered. -/
def discoverStep (t : ℚ) (acc : List ℚ) : List ℚ :=
  grid.foldl
    (fun acc2 k => if inWindow k t ∧ k ∉ acc2 then acc2 ++ [k] else acc2) acc

/-- The discovery pass (lines 239 to 244) over the list of true values,
starting from the empty center list. -/
def discover (trues : List ℚ) : List ℚ :=
  trues.foldl (fun acc t => discoverStep t acc) []

/-- One iteration of the filling loop (lines 250 to 252) for the sample
with true value t and prediction p: append p to every bucket whose center
window strictly contains t. -/
def fillStep (t p : ℚ) (buckets : List (ℚ × List ℚ)) : List (ℚ × List ℚ) :=
  buckets.map (fun cb => if inWindow cb.1 t then (cb.1, cb.2 ++ [p]) else cb)

/-- The filling pass (lines 247 to 252) over the evaluation samples, each
a pair of true value and predicted value, in evaluation order. -/
def fillAll (samples : List (ℚ × ℚ)) (buckets : List (ℚ × List ℚ)) :
    List (ℚ × List ℚ) :=
  samples.foldl (fun bs s => fillStep s.1 s.2 bs) buckets

/-- The final bucket map (lines 236 to 252): discover the centers from
the true values, pair each with an initially empty bucket, then run the
filling pass over the samples. -/
def bucketMap (samples : List (ℚ × ℚ)) : List (ℚ × List ℚ) :=
  fillAll samples ((discover (samples.map Prod.fst)).map (fun c => (c, [])))

theorem widthList_head (decay : ℚ) (n h : ℕ) :
    ∃ tl, widthList decay n h = h :: tl := by
  cases n <;> exact ⟨_, rfl⟩

theorem nextWidth_eq (decay : ℚ) (w k : ℕ)
    (hlo : (k : ℚ) - 1 < decay * (w : ℚ)) (hhi : decay * (w : ℚ) ≤ (k : ℚ)) :
    nextWidth decay w = k := by
  have hceil : Int.ceil (decay * (w : ℚ)) = (k : ℤ) := by
    rw [Int.ceil_eq_iff]
    constructor
    · push_cast
      exact hlo
    · push_cast
      exact hhi
  simp [nextWidth, hceil]

theorem buildLoop_succ (decay leak drop : ℚ) (n h : ℕ) :
    buildLoop decay leak drop (n + 1) h =
      (([Layer.leakyReLU leak]
          ++ (if drop > 0 then [Layer.dropoutLayer drop] else [])
          ++ [Layer.linear h (nextWidth decay h)])
        ++ (buildLoop decay leak drop n (nextWidth decay h)).1,
       (buildLoop decay leak drop n (nextWidth decay h)).2) := rfl

theorem buildLoop_zero (decay leak drop : ℚ) (h : ℕ) :
    buildLoop decay leak drop 0 h = ([], h) := rfl

theorem nextWidth_le (decay : ℚ) (w : ℕ) (hd1 : decay ≤ 1) :
    nextWidth decay w ≤ w := by
  have hmul : decay * (w : ℚ) ≤ (w : ℚ) := by
    have hw : (0 : ℚ) ≤ (w : ℚ) := by positivity
    calc decay * (w : ℚ) ≤ 1 * (w : ℚ) := by
          exact mul_le_mul_of_nonneg_right hd1 hw
      _ = (w : ℚ) := one_mul _
  have hceil : Int.ceil (decay * (w : ℚ)) ≤ (w : ℤ) := by
    exact Int.ceil_le.mpr (by exact_mod_cast hmul)
  exact Int.toNat_le.mpr hceil

theorem nextWidth_lt (decay : ℚ) (w : ℕ)
    (hstep : decay * (w : ℚ) ≤ (w : ℚ) - 1) (hw : 1 ≤ w) :
    nextWidth decay w < w := by
  have hceil : Int.ceil (decay * (w : ℚ)) ≤ (w : ℤ) - 1 := by
    refine Int.ceil_le.mpr ?_
    have : ((w : ℤ) - 1 : ℤ) = (((w : ℚ) - 1 : ℚ) : ℚ) := by push_cast; ring
    push_cast
    exact hstep
  have hlt : Int.ceil (decay * (w : ℚ)) < (w : ℤ) := by omega
  have hb : (0 : ℤ) < (w : ℤ) := by exact_mod_cast hw
  have := (Int.toNat_lt_toNat hb).mpr hlt
  simpa [nextWidth] using this

theorem widthList_antitone (decay : ℚ) (hd1 : decay ≤ 1) :
    ∀ (n h : ℕ), List.Chain' (fun a b => b ≤ a) (widthList decay n h) := by
  intro n
  induction n with
  | zero => intro h; simp [widthList]
  | succ n ih =>
      intro h
      have hred : widthList decay (n + 1) h
          = h :: widthList decay n (nextWidth decay h) := rfl
      rw [hred]
      obtain ⟨tl, htl⟩ := widthList_head decay n (nextWidth decay h)
      refine List.Chain'.cons' (ih (nextWidth decay h)) ?_
      intro y hy
      rw [htl] at hy
      simp only [List.head?_cons, Option.mem_def, Option.some.injEq] at hy
      subst hy
      exact nextWidth_le decay h hd1

/-- Claim C1: with input width `n`, hidden-layer count 3, first hidden
width 256 and decay factor 0.5 (and the scripts leak rate 0.01 and
dropout 0.0), the builder produces the hidden-width sequence
[256, 128, 64, 32] followed by a terminal linear stage of output width 1,
and the next width after width 3 under decay 0.5 is ceil(1.5) = 2. -/
theorem C1_architecture (n : ℕ) :
    widthList (1 / 2) 3 256 = [256, 128, 64, 32] ∧
    buildLayers n 3 256 (1 / 2) (1 / 100) 0 =
      [Layer.linear n 256,
       Layer.leakyReLU (1 / 100), Layer.linear 256 128,
       Layer.leakyReLU (1 / 100), Layer.linear 128 64,
       Layer.leakyReLU (1 / 100), Layer.linear 64 32,
       Layer.leakyReLU (1 / 100), Layer.linear 32 1] ∧
    nextWidth (1 / 2) 3 = 2 := by
  have e256 : nextWidth (1 / 2) 256 = 128 :=
    nextWidth_eq _ _ _ (by norm_num) (by norm_num)
  have e128 : nextWidth (1 / 2) 128 = 64 :=
    nextWidth_eq _ _ _ (by norm_num) (by norm_num)
  have e64 : nextWidth (1 / 2) 64 = 32 :=
    nextWidth_eq _ _ _ (by norm_num) (by norm_num)
  have e3 : nextWidth (1 / 2) 3 = 2 :=
    nextWidth_eq _ _ _ (by norm_num) (by norm_num)
  have hif : (if (0 : ℚ) > 0 then [Layer.dropoutLayer 0] else ([] : List Layer))
      = [] := if_neg (by norm_num)
  refine ⟨?_, ?_, e3⟩
  · rw [show widthList (1 / 2) 3 256
          = 256 :: widthList (1 / 2) 2 (nextWidth (1 / 2) 256) from rfl, e256,
        show widthList (1 / 2) 2 128
          = 128 :: widthList (1 / 2) 1 (nextWidth (1 / 2) 128) from rfl, e128,
        show widthList (1 / 2) 1 64
          = 64 :: widthList (1 / 2) 0 (nextWidth (1 / 2) 64) from rfl, e64]
    rfl
  · simp only [buildLayers, buildLoop_succ, buildLoop_zero, e256, e128, e64, hif]
    rfl

/-- Claim C7, counterexample: with first hidden width 1, hidden-layer
count 1 and decay factor 1/2 (which lies in the open interval (0,1)),
the width sequence is [1, 1], which is not strictly decreasing. -/
theorem C7_counterexample :
    (0 : ℚ) < 1 / 2 ∧ (1 / 2 : ℚ) < 1 ∧ (1 ≤ 1) ∧
    widthList (1 / 2) 1 1 = [1, 1] ∧
    ¬ List.Chain' (fun a b : ℕ => b < a) (widthList (1 / 2) 1 1) := by
  have e1 : nextWidth (1 / 2) 1 = 1 :=
    nextWidth_eq _ _ _ (by norm_num) (by norm_num)
  have elist : widthList (1 / 2) 1 1 = [1, 1] := by
    rw [show widthList (1 / 2) 1 1
          = 1 :: widthList (1 / 2) 0 (nextWidth (1 / 2) 1) from rfl, e1]
    rfl
  refine ⟨by norm_num, by norm_num, le_refl 1, elist, ?_⟩
  rw [elist, List.chain'_pair]
  omega

/-- Claim C7 as amended: for every decay factor in (0,1) the width
sequence is deterministic (it is a function of the hyperparameters) and
non-increasing; a step from width w is strictly decreasing exactly when
decay * w is at most w - 1, and in particular for decay at most 1/2 every
step from a width of at least 2 strictly decreases. -/
theorem C7_narrowing (decay : ℚ) (h0 : 0 < decay) (h1 : decay < 1) :
    (∀ n h, List.Chain' (fun a b => b ≤ a) (widthList decay n h)) ∧
    (∀ w : ℕ, 1 ≤ w → decay * (w : ℚ) ≤ (w : ℚ) - 1 → nextWidth decay w < w) ∧
    (∀ w : ℕ, 2 ≤ w → decay ≤ 1 / 2 → nextWidth decay w < w) := by
  refine ⟨widthList_antitone decay (le_of_lt h1), ?_, ?_⟩
  · intro w hw hstep
    exact nextWidth_lt decay w hstep hw
  · intro w hw hd
    refine nextWidth_lt decay w ?_ (by omega)
    have hwq : (2 : ℚ) ≤ (w : ℚ) := by exact_mod_cast hw
    have hwpos : (0 : ℚ) ≤ (w : ℚ) := by positivity
    have : decay * (w : ℚ) ≤ (1 / 2) * (w : ℚ) :=
      mul_le_mul_of_nonneg_right hd hwpos
    nlinarith

/-- Witness for C7 as amended, at the scripts own hyperparameters:
decay 1/2, three hidden layers, first width 256. -/
theorem C7_narrowing_witness :
    List.Chain' (fun a b => b ≤ a) (widthList (1 / 2) 3 256) ∧
    nextWidth (1 / 2) 256 < 256 :=
  ⟨(C7_narrowing (1 / 2) (by norm_num) (by norm_num)).1 3 256,
   (C7_narrowing (1 / 2) (by norm_num) (by norm_num)).2.2 256 (by norm_num)
     (by norm_num)⟩

theorem colStd_nonneg {m n : ℕ} (val : Fin m → Fin n → ℝ) (j : Fin n) :
    0 ≤ colStd val j :=
  Real.sqrt_nonneg _

theorem colMean_const {m n : ℕ} (val : Fin m → Fin n → ℝ) (j : Fin n) (c : ℝ)
    (hm : 0 < m) (hc : ∀ i, val i j = c) : colMean val j = c := by
  have hsum : (∑ i, val i j) = (m : ℝ) * c := by
    rw [Finset.sum_congr rfl (fun i _ => hc i), Finset.sum_const,
        Finset.card_univ, Fintype.card_fin, nsmul_eq_mul]
  have hm0 : (m : ℝ) ≠ 0 := Nat.cast_ne_zero.mpr (by omega)
  rw [colMean, hsum]
  field_simp

theorem colStd_const {m n : ℕ} (val : Fin m → Fin n → ℝ) (j : Fin n) (c : ℝ)
    (hm : 0 < m) (hc : ∀ i, val i j = c) : colStd val j = 0 := by
  have hmean := colMean_const val j c hm hc
  have hsum : (∑ i, (val i j - colMean val j) ^ 2) = 0 := by
    refine Finset.sum_eq_zero fun i _ => ?_
    rw [hc i, hmean, sub_self]
    ring
  rw [colStd, hsum, zero_div, Real.sqrt_zero]

/-- Claim C2: for every 2-D table, the scaler output at row i and column
j is (value - mean) / (std + 1e-8) with the per-column mean and standard
deviation of that same table, and the scaler is a pure function: equal
inputs give equal outputs (no state is kept between invocations). -/
theorem C2_scaler_formula {m n : ℕ} (val val2 : Fin m → Fin n → ℝ) :
    (∀ i j, Scaler val i j
        = (val i j - colMean val j) / (colStd val j + 1e-8)) ∧
    (val = val2 → Scaler val = Scaler val2) :=
  ⟨fun _ _ => rfl, fun h => by rw [h]⟩

/-- Witness for C2 at a concrete 2 by 1 table. -/
theorem C2_scaler_formula_witness :
    (Scaler (fun _ _ => (1 : ℝ) : Fin 2 → Fin 1 → ℝ) 0 0
        = ((1 : ℝ) - colMean (fun _ _ => (1 : ℝ) : Fin 2 → Fin 1 → ℝ) 0)
            / (colStd (fun _ _ => (1 : ℝ) : Fin 2 → Fin 1 → ℝ) 0 + 1e-8)) ∧
    Scaler (fun _ _ => (1 : ℝ) : Fin 2 → Fin 1 → ℝ)
      = Scaler (fun _ _ => (1 : ℝ) : Fin 2 → Fin 1 → ℝ) :=
  ⟨(C2_scaler_formula (fun _ _ => (1 : ℝ)) (fun _ _ => (1 : ℝ))).1 0 0,
   (C2_scaler_formula (fun _ _ => (1 : ℝ)) (fun _ _ => (1 : ℝ))).2 rfl⟩

/-- Claim C8: on a table with at least two rows whose column j is
constant (zero variance), the scaler divides by std + 1e-8, which is
strictly positive, and the output in that column is 0 in every row. -/
theorem C8_zero_variance {m n : ℕ} (val : Fin m → Fin n → ℝ) (j : Fin n)
    (hm : 2 ≤ m) (hconst : ∀ i i2, val i j = val i2 j) :
    0 < colStd val j + 1e-8 ∧ ∀ i, Scaler val i j = 0 := by
  have hm0 : 0 < m := by omega
  have i0 : Fin m := ⟨0, hm0⟩
  have hc : ∀ i, val i j = val i0 j := fun i => hconst i i0
  have hstd := colStd_const val j (val i0 j) hm0 hc
  have hmean := colMean_const val j (val i0 j) hm0 hc
  constructor
  · rw [hstd]
    norm_num
  · intro i
    rw [show Scaler val i j
          = (val i j - colMean val j) / (colStd val j + 1e-8) from rfl,
        hstd, hmean, hc i, sub_self, zero_div]

/-- Witness for C8 at the constant 2 by 1 table of ones. -/
theorem C8_zero_variance_witness :
    0 < colStd (fun _ _ => (1 : ℝ) : Fin 2 → Fin 1 → ℝ) 0 + 1e-8 ∧
    Scaler (fun _ _ => (1 : ℝ) : Fin 2 → Fin 1 → ℝ) 0 0 = 0 :=
  ⟨(C8_zero_variance (fun _ _ => (1 : ℝ)) 0 (by norm_num)
      (fun _ _ => rfl)).1,
   (C8_zero_variance (fun _ _ => (1 : ℝ)) 0 (by norm_num)
      (fun _ _ => rfl)).2 0⟩

/-- Claim C9: the evaluation feature tensor is standardized with
statistics computed from the evaluation set itself: the preprocessing
applies the Scaler separately to the training tensor and to the
evaluation tensor, so the scaled evaluation tensor equals the Scaler of
the evaluation tensor alone, uses the evaluation-set column means and
standard deviations, and does not depend on the training tensor at
all. -/
theorem C9_separate_scaling {mtr mtr2 mte n : ℕ}
    (xTrain : Fin mtr → Fin n → ℝ) (xTrain2 : Fin mtr2 → Fin n → ℝ)
    (xTest : Fin mte → Fin n → ℝ) :
    (preprocess xTrain xTest).2 = Scaler xTest ∧
    (∀ i j, (preprocess xTrain xTest).2 i j
        = (xTest i j - colMean xTest j) / (colStd xTest j + 1e-8)) ∧
    (preprocess xTrain xTest).2 = (preprocess xTrain2 xTest).2 :=
  ⟨rfl, fun _ _ => rfl, rfl⟩

theorem epochBody_fst_epochlist {M P O S : Type} (ops : TrainOps M P O S)
    (n : ℕ) (st : TrainState M O S) :
    (epochBody ops n st).1.epochlist = st.epochlist ++ [n] := rfl

theorem epochBody_fst_losslist {M P O S : Type} (ops : TrainOps M P O S)
    (n : ℕ) (st : TrainState M O S) :
    (epochBody ops n st).1.losslist
      = st.losslist ++ [ops.lossFn (ops.forward st.params)] := rfl

theorem epochBody_snd {M P O S : Type} (ops : TrainOps M P O S)
    (n : ℕ) (st : TrainState M O S) :
    (epochBody ops n st).2
      = epochEvents n (ops.lossFn (ops.forward st.params)) := rfl

theorem trainRun_succ {M P O S : Type} (ops : TrainOps M P O S)
    (init : TrainState M O S) (n : ℕ) :
    trainRun ops init (n + 1)
      = ((epochBody ops n (trainRun ops init n).1).1,
         (trainRun ops init n).2 ++ (epochBody ops n (trainRun ops init n).1).2) :=
  rfl

theorem trainRun_state {M P O S : Type} (ops : TrainOps M P O S)
    (init : TrainState M O S) :
    ∀ N, (trainRun ops init N).1.epochlist = init.epochlist ++ List.range N ∧
      (trainRun ops init N).1.losslist.length = init.losslist.length + N := by
  intro N
  induction N with
  | zero => simp [trainRun]
  | succ N ih =>
      rw [trainRun_succ]
      constructor
      · rw [epochBody_fst_epochlist, ih.1, List.range_succ, List.append_assoc]
      · rw [epochBody_fst_losslist, List.length_append, ih.2]
        simp
        omega

/-- Claim C3: for every epoch count and every behaviour of the model,
optimizer and scheduler (the loop has no early-stopping exit), the
training trace has exactly numEpochs entries, the recorded epoch indices
are exactly 0 to numEpochs - 1 in strictly increasing order, and the loss
trace has one entry per epoch. -/
theorem C3_training_trace {M P O S : Type} (ops : TrainOps M P O S)
    (p : M) (o : O) (s : S) (numEpochs : ℕ) :
    (trainRun ops (initState p o s) numEpochs).1.epochlist
        = List.range numEpochs ∧
    (trainRun ops (initState p o s) numEpochs).1.epochlist.length = numEpochs ∧
    (trainRun ops (initState p o s) numEpochs).1.losslist.length = numEpochs ∧
    List.Chain' (fun a b => a < b)
      (trainRun ops (initState p o s) numEpochs).1.epochlist := by
  have h := trainRun_state ops (initState p o s) numEpochs
  have he : (initState p o s : TrainState M O S).epochlist = [] := rfl
  have hl : (initState p o s : TrainState M O S).losslist = [] := rfl
  rw [he] at h
  rw [hl] at h
  refine ⟨?_, ?_, ?_, ?_⟩
  · rw [h.1, List.nil_append]
  · rw [h.1, List.nil_append, List.length_range]
  · rw [h.2, List.length_nil, Nat.zero_add]
  · rw [h.1, List.nil_append]
    exact (List.pairwise_lt_range numEpochs).chain'

/-- Claim C4: the event trace of the full run is, epoch by epoch in
order: one forward pass over the full training set, the loss computation,
gradient clearing, back-propagation, exactly one optimizer step, the
recording of the (epoch, loss) pair, and then the scheduler step fed with
that epochs scalar loss; every epoch performs exactly one optimizer step
and feeds the scheduler exactly once. -/
theorem C4_epoch_actions {M P O S : Type} (ops : TrainOps M P O S)
    (init : TrainState M O S) (numEpochs : ℕ) :
    (trainRun ops init numEpochs).2
        = (List.range numEpochs).flatMap
            (fun k => epochEvents k (lossAt ops init k)) ∧
    (∀ k l,
      epochEvents k l
          = [TrainEvent.forwardPass, TrainEvent.lossComputed l,
             TrainEvent.zeroGrad, TrainEvent.backprop, TrainEvent.optimStep,
             TrainEvent.record k l, TrainEvent.schedStep l] ∧
      (epochEvents k l).countP (fun e => e == TrainEvent.optimStep) = 1 ∧
      (epochEvents k l).countP (fun e => e == TrainEvent.schedStep l) = 1) := by
  constructor
  · induction numEpochs with
    | zero => simp [trainRun]
    | succ N ih =>
        have hsnd : (trainRun ops init (N + 1)).2
            = (trainRun ops init N).2
              ++ epochEvents N
                  (ops.lossFn (ops.forward (trainRun ops init N).1.params)) :=
          rfl
        rw [hsnd, ih, List.range_succ, List.flatMap_append]
        simp [lossAt]
  · intro k l
    refine ⟨rfl, ?_, ?_⟩ <;> simp [epochEvents, List.countP_cons]

theorem register_foldl_mem (t : ℚ) :
    ∀ (ks acc : List ℚ) (c : ℚ),
      c ∈ ks.foldl
        (fun acc2 k => if inWindow k t ∧ k ∉ acc2 then acc2 ++ [k] else acc2)
        acc →
      c ∈ acc ∨ (c ∈ ks ∧ inWindow c t) := by
  intro ks
  induction ks with
  | nil => intro acc c hc; exact Or.inl hc
  | cons k ks ih =>
      intro acc c hc
      rw [List.foldl_cons] at hc
      rcases ih _ c hc with h | h
      · by_cases hk : inWindow k t ∧ k ∉ acc
        · rw [if_pos hk] at h
          rcases List.mem_append.mp h with h1 | h1
          · exact Or.inl h1
          · have hck : c = k := by simpa using h1
            subst hck
            exact Or.inr ⟨List.mem_cons_self _ _, hk.1⟩
        · rw [if_neg hk] at h
          exact Or.inl h
      · exact Or.inr ⟨List.mem_cons_of_mem _ h.1, h.2⟩

theorem register_foldl_nodup (t : ℚ) :
    ∀ (ks acc : List ℚ), acc.Nodup →
      (ks.foldl
        (fun acc2 k => if inWindow k t ∧ k ∉ acc2 then acc2 ++ [k] else acc2)
        acc).Nodup := by
  intro ks
  induction ks with
  | nil => intro acc h; exact h
  | cons k ks ih =>
      intro acc h
      rw [List.foldl_cons]
      by_cases hk : inWindow k t ∧ k ∉ acc
      · rw [if_pos hk]
        refine ih _ ?_
        rw [List.nodup_append]
        refine ⟨h, List.nodup_singleton k, ?_⟩
        intro a ha hb
        have hak : a = k := by simpa using hb
        subst hak
        exact hk.2 ha
      · rw [if_neg hk]
        exact ih _ h

theorem register_foldl_subset (t : ℚ) :
    ∀ (ks acc : List ℚ) (c : ℚ), c ∈ acc →
      c ∈ ks.foldl
        (fun acc2 k => if inWindow k t ∧ k ∉ acc2 then acc2 ++ [k] else acc2)
        acc := by
  intro ks
  induction ks with
  | nil => intro acc c hc; exact hc
  | cons k ks ih =>
      intro acc c hc
      rw [List.foldl_cons]
      by_cases hk : inWindow k t ∧ k ∉ acc
      · rw [if_pos hk]
        exact ih _ c (List.mem_append_left _ hc)
      · rw [if_neg hk]
        exact ih _ c hc

theorem register_foldl_complete (t : ℚ) :
    ∀ (ks acc : List ℚ) (c : ℚ), c ∈ ks → inWindow c t →
      c ∈ ks.foldl
        (fun acc2 k => if inWindow k t ∧ k ∉ acc2 then acc2 ++ [k] else acc2)
        acc := by
  intro ks
  induction ks with
  | nil => intro acc c hc; exact absurd hc (List.not_mem_nil c)
  | cons k ks ih =>
      intro acc c hc hw
      rw [List.foldl_cons]
      rcases List.mem_cons.mp hc with hck | hck
      · subst hck
        by_cases hmem : c ∈ acc
        · by_cases hk : inWindow c t ∧ c ∉ acc
          · rw [if_pos hk]
            exact register_foldl_subset t ks _ c (List.mem_append_left _ hmem)
          · rw [if_neg hk]
            exact register_foldl_subset t ks _ c hmem
        · rw [if_pos ⟨hw, hmem⟩]
          exact register_foldl_subset t ks _ c
            (List.mem_append_right _ (List.mem_singleton_self c))
      · exact ih _ c hck hw

theorem discover_foldl_mem :
    ∀ (trues acc : List ℚ) (c : ℚ),
      c ∈ trues.foldl (fun acc t => discoverStep t acc) acc →
      c ∈ acc ∨ (c ∈ grid ∧ ∃ t ∈ trues, inWindow c t) := by
  intro trues
  induction trues with
  | nil => intro acc c hc; exact Or.inl hc
  | cons t ts ih =>
      intro acc c hc
      rw [List.foldl_cons] at hc
      rcases ih _ c hc with h | h
      · rcases register_foldl_mem t grid acc c h with h1 | h1
        · exact Or.inl h1
        · exact Or.inr ⟨h1.1, t, List.mem_cons_self _ _, h1.2⟩
      · obtain ⟨t2, ht2, hw⟩ := h.2
        exact Or.inr ⟨h.1, t2, List.mem_cons_of_mem _ ht2, hw⟩

theorem discover_foldl_nodup :
    ∀ (trues acc : List ℚ), acc.Nodup →
      (trues.foldl (fun acc t => discoverStep t acc) acc).Nodup := by
  intro trues
  induction trues with
  | nil => intro acc h; exact h
  | cons t ts ih =>
      intro acc h
      rw [List.foldl_cons]
      exact ih _ (register_foldl_nodup t grid acc h)

theorem discover_foldl_subset :
    ∀ (trues acc : List ℚ) (c : ℚ), c ∈ acc →
      c ∈ trues.foldl (fun acc t => discoverStep t acc) acc := by
  intro trues
  induction trues with
  | nil => intro acc c hc; exact hc
  | cons t ts ih =>
      intro acc c hc
      rw [List.foldl_cons]
      exact ih _ c (register_foldl_subset t grid acc c hc)

theorem discover_complete :
    ∀ (trues acc : List ℚ) (c t : ℚ), t ∈ trues → c ∈ grid → inWindow c t →
      c ∈ trues.foldl (fun acc t => discoverStep t acc) acc := by
  intro trues
  induction trues with
  | nil => intro acc c t ht; exact absurd ht (List.not_mem_nil t)
  | cons t0 ts ih =>
      intro acc c t ht hcg hw
      rw [List.foldl_cons]
      rcases List.mem_cons.mp ht with h | h
      · subst h
        exact discover_foldl_subset ts _ c
          (register_foldl_complete t grid acc c hcg hw)
      · exact ih _ c t h hcg hw

/-- Claim C6: every center registered by the discovery pass lies on the
grid 0, 0.5, ..., 29.5, the registered centers are pairwise distinct
(each center is registered at most once), and each registered center has
at least one evaluation sample whose true value lies strictly within
0.25 of it; hence the bucket map holds no center whose window matched no
true value. -/
theorem C6_bucket_centers (trues : List ℚ) (c : ℚ) (hc : c ∈ discover trues) :
    c ∈ grid ∧ (discover trues).Nodup ∧ ∃ t ∈ trues, inWindow c t := by
  have hnd : (discover trues).Nodup :=
    discover_foldl_nodup trues [] List.nodup_nil
  rcases discover_foldl_mem trues [] c hc with h | h
  · exact absurd h (List.not_mem_nil c)
  · exact ⟨h.1, hnd, h.2⟩

theorem zero_mem_grid : (0 : ℚ) ∈ grid := by
  show (0 : ℚ) ∈ (List.range 60).map (fun i : ℕ => (i : ℚ) / 2)
  refine List.mem_map.mpr ⟨0, ?_, ?_⟩
  · exact List.mem_range.mpr (by norm_num)
  · norm_num

/-- Witness for C6: with the single evaluation true value 0, the center 0
is registered, lies on the grid, and its window holds the true value 0. -/
theorem C6_bucket_centers_witness :
    (0 : ℚ) ∈ grid ∧ (discover [(0 : ℚ)]).Nodup ∧
    ∃ t ∈ [(0 : ℚ)], inWindow 0 t :=
  C6_bucket_centers [0] 0
    (discover_complete [0] [] 0 0 (List.mem_singleton_self 0)
      zero_mem_grid (by norm_num [inWindow]))

theorem mem_grid_iff (c : ℚ) :
    c ∈ grid ↔ ∃ i : ℕ, i < 60 ∧ c = (i : ℚ) / 2 := by
  show c ∈ (List.range 60).map (fun i : ℕ => (i : ℚ) / 2) ↔ _
  rw [List.mem_map]
  constructor
  · rintro ⟨i, hi, heq⟩
    exact ⟨i, List.mem_range.mp hi, heq.symm⟩
  · rintro ⟨i, hi, heq⟩
    exact ⟨i, List.mem_range.mpr hi, heq.symm⟩

theorem grid_window_disjoint (c1 c2 t : ℚ) (h1 : c1 ∈ grid) (h2 : c2 ∈ grid)
    (hne : c1 ≠ c2) : ¬ (inWindow c1 t ∧ inWindow c2 t) := by
  obtain ⟨i1, hi1, rfl⟩ := (mem_grid_iff c1).mp h1
  obtain ⟨i2, hi2, rfl⟩ := (mem_grid_iff c2).mp h2
  intro hcontra
  have hw1 : (i1 : ℚ) / 2 - 1 / 4 < t ∧ t < (i1 : ℚ) / 2 + 1 / 4 := hcontra.1
  have hw2 : (i2 : ℚ) / 2 - 1 / 4 < t ∧ t < (i2 : ℚ) / 2 + 1 / 4 := hcontra.2
  have hne2 : i1 ≠ i2 := by
    intro h
    exact hne (by rw [h])
  have q1 : (i2 : ℚ) < (i1 : ℚ) + 1 := by
    have := hw2.1
    have := hw1.2
    linarith
  have q2 : (i1 : ℚ) < (i2 : ℚ) + 1 := by
    have := hw1.1
    have := hw2.2
    linarith
  have z1 : i2 < i1 + 1 := by exact_mod_cast q1
  have z2 : i1 < i2 + 1 := by exact_mod_cast q2
  omega

theorem countP_le_one_of_pairwise {α : Type} (p : α → Bool) :
    ∀ l : List α,
      l.Pairwise (fun a b => ¬ (p a = true ∧ p b = true)) →
      l.countP p ≤ 1 := by
  intro l
  induction l with
  | nil => intro _; simp
  | cons a l ih =>
      intro hp
      obtain ⟨ha, hl⟩ := List.pairwise_cons.mp hp
      rw [List.countP_cons]
      by_cases hpa : p a = true
      · have hz : l.countP p = 0 := by
          rw [List.countP_eq_zero]
          intro b hb hpb
          exact ha b hb ⟨hpa, hpb⟩
        simp [hz, hpa]
      · have hif : (if p a = true then 1 else 0) = 0 := by simp [hpa]
        rw [hif]
        have := ih hl
        omega

theorem fillAll_cons (t p : ℚ) (ss : List (ℚ × ℚ))
    (buckets : List (ℚ × List ℚ)) :
    fillAll ((t, p) :: ss) buckets = fillAll ss (fillStep t p buckets) := rfl

theorem fillAll_append (s1 s2 : List (ℚ × ℚ)) (buckets : List (ℚ × List ℚ)) :
    fillAll (s1 ++ s2) buckets = fillAll s2 (fillAll s1 buckets) := by
  simp only [fillAll, List.foldl_append]

theorem fillAll_eq :
    ∀ (samples : List (ℚ × ℚ)) (buckets : List (ℚ × List ℚ)),
      fillAll samples buckets
        = buckets.map (fun cb =>
            (cb.1, cb.2 ++ (samples.filter
              (fun s => decide (inWindow cb.1 s.1))).map Prod.snd)) := by
  intro samples
  induction samples with
  | nil =>
      intro buckets
      simp [fillAll]
  | cons s ss ih =>
      intro buckets
      obtain ⟨t, p⟩ := s
      rw [fillAll_cons, ih]
      simp only [fillStep, List.map_map]
      refine List.map_congr_left ?_
      intro cb _
      by_cases hw : inWindow cb.1 t
      · simp [Function.comp, hw, List.filter_cons, List.append_assoc]
      · simp [Function.comp, hw, List.filter_cons]

theorem fillAll_centers (samples : List (ℚ × ℚ))
    (buckets : List (ℚ × List ℚ)) :
    (fillAll samples buckets).map Prod.fst = buckets.map Prod.fst := by
  rw [fillAll_eq, List.map_map]
  simp [Function.comp]

/-- Claim C5: the final bucket map pairs each discovered center c with
exactly the predicted values, in evaluation order, of the evaluation
samples whose true value lies strictly within 0.25 of c (every sample
prediction is appended to every bucket whose window holds its true
value); and since distinct grid centers have disjoint windows, any true
value lies in the window of at most one discovered center, so each sample
lands in at most one bucket. -/
theorem C5_bucket_contents (samples : List (ℚ × ℚ)) :
    bucketMap samples
        = (discover (samples.map Prod.fst)).map (fun c =>
            (c, (samples.filter
              (fun s => decide (inWindow c s.1))).map Prod.snd)) ∧
    ∀ t : ℚ, ((discover (samples.map Prod.fst)).countP
        (fun c => decide (inWindow c t))) ≤ 1 := by
  constructor
  · rw [bucketMap, fillAll_eq, List.map_map]
    refine List.map_congr_left ?_
    intro c _
    simp [Function.comp]
  · intro t
    apply countP_le_one_of_pairwise
    have hnd : (discover (samples.map Prod.fst)).Nodup :=
      discover_foldl_nodup _ [] List.nodup_nil
    refine List.Pairwise.imp_of_mem ?_ hnd
    intro a b ha hb hab
    have hga := (discover_foldl_mem _ [] a ha).resolve_left
      (List.not_mem_nil a)
    have hgb := (discover_foldl_mem _ [] b hb).resolve_left
      (List.not_mem_nil b)
    intro hcontra
    obtain ⟨hpa, hpb⟩ := hcontra
    rw [decide_eq_true_eq] at hpa hpb
    exact grid_window_disjoint a b t hga.1 hgb.1 hab ⟨hpa, hpb⟩

theorem not_inWindow_grid (t : ℚ)
    (ht : (∃ m : ℤ, t = (2 * m + 1) / 4) ∨ (119 / 4 : ℚ) ≤ t ∨ t ≤ -(1 / 4)) :
    ∀ c ∈ grid, ¬ inWindow c t := by
  intro c hc hw
  obtain ⟨i, hi, rfl⟩ := (mem_grid_iff c).mp hc
  have hw2 : (i : ℚ) / 2 - 1 / 4 < t ∧ t < (i : ℚ) / 2 + 1 / 4 := hw
  obtain ⟨hlo, hhi⟩ := hw2
  rcases ht with ⟨m, rfl⟩ | ht | ht
  · have q1 : 2 * (i : ℚ) - 1 < 2 * (m : ℚ) + 1 := by linarith
    have q2 : 2 * (m : ℚ) + 1 < 2 * (i : ℚ) + 1 := by linarith
    have z1 : 2 * (i : ℤ) - 1 < 2 * m + 1 := by exact_mod_cast q1
    have z2 : 2 * m + 1 < 2 * (i : ℤ) + 1 := by exact_mod_cast q2
    omega
  · have hiq : (i : ℚ) ≤ 59 := by
      exact_mod_cast (by omega : i ≤ 59)
    linarith
  · have hipos : (0 : ℚ) ≤ (i : ℚ) := by positivity
    linarith

theorem register_foldl_id (t : ℚ) :
    ∀ (ks acc : List ℚ), (∀ k ∈ ks, ¬ inWindow k t) →
      ks.foldl
        (fun acc2 k => if inWindow k t ∧ k ∉ acc2 then acc2 ++ [k] else acc2)
        acc = acc := by
  intro ks
  induction ks with
  | nil => intro acc _; rfl
  | cons k ks ih =>
      intro acc h
      rw [List.foldl_cons, if_neg]
      · exact ih _ (fun k2 hk2 => h k2 (List.mem_cons_of_mem _ hk2))
      · intro hk
        exact h k (List.mem_cons_self _ _) hk.1

theorem discoverStep_id (t : ℚ) (h : ∀ k ∈ grid, ¬ inWindow k t)
    (acc : List ℚ) : discoverStep t acc = acc :=
  register_foldl_id t grid acc h

theorem fillStep_id (t p : ℚ) (buckets : List (ℚ × List ℚ))
    (h : ∀ cb ∈ buckets, ¬ inWindow cb.1 t) :
    fillStep t p buckets = buckets := by
  simp only [fillStep]
  conv_rhs => rw [← List.map_id buckets]
  refine List.map_congr_left ?_
  intro cb hcb
  simp [h cb hcb]

/-- Claim C10: a true value that is an odd multiple of 0.25 (a window
boundary), or at least 29.75, or at most -0.25, lies strictly inside no
window of the grid; a sample with such a true value registers no center
during discovery and its prediction is appended to no bucket, so the
bucket map of an evaluation containing that sample equals the bucket map
of the same evaluation without it. -/
theorem C10_boundary_omitted (t : ℚ)
    (ht : (∃ m : ℤ, t = (2 * m + 1) / 4) ∨ (119 / 4 : ℚ) ≤ t ∨ t ≤ -(1 / 4)) :
    (∀ c ∈ grid, ¬ inWindow c t) ∧
    (∀ (pre post : List (ℚ × ℚ)) (p : ℚ),
      bucketMap (pre ++ (t, p) :: post) = bucketMap (pre ++ post)) := by
  have hng := not_inWindow_grid t ht
  refine ⟨hng, ?_⟩
  intro pre post p
  have hdisc : discover ((pre ++ (t, p) :: post).map Prod.fst)
      = discover ((pre ++ post).map Prod.fst) := by
    have h1 : (pre ++ (t, p) :: post).map Prod.fst
        = pre.map Prod.fst ++ t :: post.map Prod.fst := by simp
    have h2 : (pre ++ post).map Prod.fst
        = pre.map Prod.fst ++ post.map Prod.fst := by simp
    rw [h1, h2]
    simp only [discover, List.foldl_append, List.foldl_cons]
    rw [discoverStep_id t hng]
  have hcent : ∀ cb ∈ fillAll pre
      ((discover ((pre ++ post).map Prod.fst)).map
        (fun c => (c, ([] : List ℚ)))), cb.1 ∈ grid := by
    intro cb hcb
    have hmem : cb.1 ∈ (fillAll pre
        ((discover ((pre ++ post).map Prod.fst)).map
          (fun c => (c, ([] : List ℚ))))).map Prod.fst :=
      List.mem_map_of_mem _ hcb
    rw [fillAll_centers] at hmem
    have hmem2 : cb.1 ∈ discover ((pre ++ post).map Prod.fst) := by
      simpa using hmem
    have := discover_foldl_mem _ [] cb.1 hmem2
    exact (this.resolve_left (List.not_mem_nil _)).1
  rw [bucketMap, bucketMap, hdisc, fillAll_append, fillAll_append,
      fillAll_cons, fillStep_id t p _ (fun cb hcb => hng cb.1 (hcent cb hcb))]

/-- Witness for C10: the boundary true value 0.25 lies in no grid window,
and a sample with true value 0.25 and prediction 5 leaves the bucket map
of the empty evaluation unchanged. -/
theorem C10_boundary_omitted_witness :
    ¬ inWindow 0 (1 / 4 : ℚ) ∧
    bucketMap [((1 : ℚ) / 4, 5)] = bucketMap [] := by
  have h := C10_boundary_omitted (1 / 4) (Or.inl ⟨0, by norm_num⟩)
  refine ⟨h.1 0 zero_mem_grid, ?_⟩
  exact h.2 [] [] 5

end EpicBHCal
